import Mathlib

/-!
Shallow embedding of `src/blockchain.py` (a minimal proof-of-work ledger)
and verification of its specification claims.

Modelling conventions:
* Python `int` is modelled as `Int` (`Nat` where the source only ever
  produces non-negative values, e.g. list lengths).
* Python `float` timestamps carry no arithmetic in the source; they are
  modelled as `Nat` clock values threaded explicitly into the operations
  that call `time()`.
* `hashlib.sha256` is implemented bit-faithfully over byte lists
  (messages here are ASCII, so a byte is a character code).
* Python exceptions are modelled with `Option`/result flags.
-/

set_option maxRecDepth 100000

namespace Chain

/-- `2^32`, the modulus for 32-bit words in SHA-256. -/
def M32 : Nat := 4294967296

/-- Right rotation of a 32-bit word (operands assumed `< M32`). -/
def rotr (n x : Nat) : Nat := (x >>> n) ||| ((x <<< (32 - n)) % M32)

/-- The SHA-256 round constants (FIPS 180-4, written in decimal). -/
def shaK : List Nat :=
  [1116352408, 1899447441, 3049323471, 3921009573, 961987163,
   1508970993, 2453635748, 2870763221, 3624381080, 310598401,
   607225278, 1426881987, 1925078388, 2162078206, 2614888103,
   3248222580, 3835390401, 4022224774, 264347078, 604807628,
   770255983, 1249150122, 1555081692, 1996064986, 2554220882,
   2821834349, 2952996808, 3210313671, 3336571891, 3584528711,
   113926993, 338241895, 666307205, 773529912, 1294757372,
   1396182291, 1695183700, 1986661051, 2177026350, 2456956037,
   2730485921, 2820302411, 3259730800, 3345764771, 3516065817,
   3600352804, 4094571909, 275423344, 430227734, 506948616,
   659060556, 883997877, 958139571, 1322822218, 1537002063,
   1747873779, 1955562222, 2024104815, 2227730452, 2361852424,
   2428436474, 2756734187, 3204031479, 3329325298]

/-- The SHA-256 initial hash state (FIPS 180-4, written in decimal). -/
def shaInit : List Nat :=
  [1779033703, 3144134277, 1013904242, 2773480762,
   1359893119, 2600822924, 528734635, 1541459225]

/-- SHA-256 padding: append `0x80`, zero bytes to 56 mod 64, then the
bit length as 8 big-endian bytes. -/
def padMsg (msg : List Nat) : List Nat :=
  let L := msg.length
  let k := (120 - ((L + 1) % 64)) % 64
  msg ++ [128] ++ List.replicate k 0 ++
    (List.range 8).map (fun i => ((8 * L) >>> (8 * (7 - i))) % 256)

/-- Group bytes into big-endian 32-bit words. -/
def toWords : List Nat → List Nat
  | b0 :: b1 :: b2 :: b3 :: rest =>
      (b0 * 16777216 + b1 * 65536 + b2 * 256 + b3) :: toWords rest
  | _ => []

/-- One step of the SHA-256 message-schedule extension. -/
def wstep (ws : List Nat) : List Nat :=
  let i := ws.length
  let w15 := ws.getD (i - 15) 0
  let w2 := ws.getD (i - 2) 0
  let s0 := (rotr 7 w15) ^^^ (rotr 18 w15) ^^^ (w15 >>> 3)
  let s1 := (rotr 17 w2) ^^^ (rotr 19 w2) ^^^ (w2 >>> 10)
  ws ++ [(ws.getD (i - 16) 0 + s0 + ws.getD (i - 7) 0 + s1) % M32]

/-- Iterate a list transformer `n` times. -/
def iterateN (f : List Nat → List Nat) : Nat → List Nat → List Nat
  | 0, a => a
  | n + 1, a => iterateN f n (f a)

/-- One SHA-256 compression round. -/
def compress1 (kw : Nat × Nat) (st : List Nat) : List Nat :=
  match st with
  | [a, b, c, d, e, f, g, h] =>
    let s1 := (rotr 6 e) ^^^ (rotr 11 e) ^^^ (rotr 25 e)
    let ch := (e &&& f) ^^^ ((e ^^^ 4294967295) &&& g)
    let t1 := (h + s1 + ch + kw.1 + kw.2) % M32
    let s0 := (rotr 2 a) ^^^ (rotr 13 a) ^^^ (rotr 22 a)
    let mj := (a &&& b) ^^^ (a &&& c) ^^^ (b &&& c)
    let t2 := (s0 + mj) % M32
    [(t1 + t2) % M32, a, b, c, (d + t1) % M32, e, f, g]
  | other => other

/-- Process one 64-byte block (given as 16 words) into the hash state. -/
def processBlock (hs : List Nat) (blockWords : List Nat) : List Nat :=
  let w := iterateN wstep 48 blockWords
  let final := (shaK.zip w).foldl (fun st kw => compress1 kw st) hs
  List.zipWith (fun x y => (x + y) % M32) hs final

/-- Process `n` 16-word blocks of the padded message into the hash state. -/
def processChunks : Nat → List Nat → List Nat → List Nat
  | 0, hs, _ => hs
  | n + 1, hs, ws => processChunks n (processBlock hs (ws.take 16)) (ws.drop 16)

/-- SHA-256 of a byte list, as the 8-word hash state. -/
def sha256 (msg : List Nat) : List Nat :=
  let ws := toWords (padMsg msg)
  processChunks (ws.length / 16) shaInit ws

/-- Lower-case hex character for a nibble. -/
def hexChar (n : Nat) : Char :=
  if n < 10 then Char.ofNat (48 + n) else Char.ofNat (87 + n)

/-- The 8 hex characters of a 32-bit word, most significant first. -/
def wordHex (w : Nat) : List Char :=
  (List.range 8).map (fun i => hexChar ((w >>> (4 * (7 - i))) % 16))

/-- Hex digest string of an 8-word hash state. -/
def hexDigest (ws : List Nat) : String := String.mk (ws.map wordHex).flatten

/-- Bytes of an ASCII string (`str.encode()` in the source; every string
digested by this program is ASCII). -/
def strBytes (s : String) : List Nat := s.data.map Char.toNat

/-- `hash(data)` from the source: the SHA-256 hex digest of the encoded
string. -/
def hashStr (data : String) : String := hexDigest (sha256 (strBytes data))

/-- `valid_proof(last_proof, proof)` from the source: the digest of the
concatenated decimal renderings must start with four `'0'` characters
(`guess[:4] == "0000"`, modelled on the character list). -/
def valid_proof (last_proof proof : Int) : Bool :=
  let guess := hashStr (toString last_proof ++ toString proof)
  guess.data.take 4 == "0000".data

/-- `proof_of_work(last_proof)` from the source: the while loop starts at
0 and increments until `valid_proof` holds, so when a solution exists it
terminates with the least one; the loop is embedded as `Nat.find` under
the termination hypothesis. -/
def proof_of_work (last_proof : Int)
    (h : ∃ p : Nat, valid_proof last_proof (Int.ofNat p) = true) : Int :=
  Int.ofNat (Nat.find h)

/-- The value a Python `previous_hash` field can hold: the source stores
the `int` sentinel `1` in the genesis block and hex digest strings
everywhere else. -/
inductive HashVal where
  | ofInt (n : Int)
  | ofStr (s : String)
deriving DecidableEq, Repr

/-- Python truthiness of a `previous_hash` value (`0` and `""` are
falsy), used by the `previous_hash or ...` expression in `new_block`. -/
def HashVal.truthy : HashVal → Bool
  | .ofInt n => n != 0
  | .ofStr s => s != ""

/-- The `Transaction` dataclass. `amount` is numeric in the source
(annotated `float`/`int`, never computed with); modelled as `Int`. -/
structure Transaction where
  sender : String
  recipient : String
  amount : Int
deriving DecidableEq, Repr

/-- The `Block` dataclass. `timestamp` is `time()` in the source, never
computed with; modelled as a `Nat` clock value. -/
structure Block where
  index : Int
  timestamp : Nat
  transactions : List Transaction
  proof : Int
  previous_hash : HashVal
deriving DecidableEq, Repr

/-- JSON rendering of a string: quoted, with `"` and backslash escaped
(the strings in this development contain no other escape-needing
characters). -/
def jsonStr (s : String) : String :=
  let esc : Char → List Char := fun c =>
    if c = '"' then ['\\', '"'] else if c = '\\' then ['\\', '\\'] else [c]
  "\"" ++ String.mk (s.data.map esc).flatten ++ "\""

/-- JSON rendering of a `previous_hash` value (the genesis sentinel is
the bare integer `1`; digests are quoted strings). -/
def HashVal.json : HashVal → String
  | .ofInt n => toString n
  | .ofStr s => jsonStr s

/-- The JSON object a `Transaction` serializes to inside
`Block.to_json` (dataclass field order). -/
def Transaction.to_json (t : Transaction) : String :=
  "\x7b\"sender\": " ++ jsonStr t.sender ++ ", \"recipient\": " ++
    jsonStr t.recipient ++ ", \"amount\": " ++ toString t.amount ++ "\x7d"

/-- `block.to_json()`: the JSON object string for a `Block`, fields in
dataclass declaration order. -/
def Block.to_json (b : Block) : String :=
  "\x7b\"index\": " ++ toString b.index ++
    ", \"timestamp\": " ++ toString b.timestamp ++
    ", \"transactions\": " ++
      ("[" ++ String.intercalate ", " (b.transactions.map Transaction.to_json) ++ "]") ++
    ", \"proof\": " ++ toString b.proof ++
    ", \"previous_hash\": " ++ b.previous_hash.json ++ "\x7d"

/-- `block_hash(block)` from the source:
`hash(dumps(block.to_json(), sort_keys=True))`. Since `block.to_json()`
is already a string, the outer `dumps` JSON-quotes it once more. -/
def block_hash (b : Block) : String := hashStr (jsonStr b.to_json)

/-- The loop body of `valid_chain` once `last_block` is set: check each
remaining block's linkage and proof against its predecessor. -/
def valid_chain_go (last : Block) : List Block → Bool
  | [] => true
  | b :: rest =>
    if b.previous_hash != HashVal.ofStr (block_hash last) then false
    else if !(valid_proof last.proof b.proof) then false
    else valid_chain_go b rest

/-- `valid_chain(chain)` from the source: the first block only seeds
`last_block`; every later block is checked against its predecessor. -/
def valid_chain : List Block → Bool
  | [] => true
  | b :: rest => valid_chain_go b rest

/-- The `Blockchain` dataclass state (fields in source order). `nodes`
is a Python set of address strings, modelled as a duplicate-free list. -/
structure Blockchain where
  nodes : List String
  chain : List Block
  unverified_transactions : List Transaction
deriving DecidableEq, Repr

/-- `register_node(address)`: `self.nodes.add(address)` (set insertion,
a no-op when already present). -/
def Blockchain.register_node (bc : Blockchain) (address : String) : Blockchain :=
  { bc with nodes := if address ∈ bc.nodes then bc.nodes else bc.nodes ++ [address] }

/-- The `last_block` property: `self.chain[-1]`; `none` models the
`IndexError` on an empty chain. -/
def Blockchain.last_block (bc : Blockchain) : Option Block := bc.chain.getLast?

/-- `new_transaction(sender, recipient, amount)`: build a `Transaction`,
append it to `unverified_transactions`, return it. -/
def Blockchain.new_transaction (bc : Blockchain) (sender recipient : String)
    (amount : Int) : Transaction × Blockchain :=
  let t : Transaction := ⟨sender, recipient, amount⟩
  (t, { bc with unverified_transactions := bc.unverified_transactions ++ [t] })

/-- `new_block(proof, previous_hash)` with the call's clock value. The
source computes `previous_hash or self.last_block_hash`; when
`previous_hash` is falsy (`None`, `0`, `""`) the fallback reads the
attribute `last_block_hash`, which is defined nowhere on `Blockchain`,
so the call raises `AttributeError` before any state mutation —
modelled as `none`. -/
def Blockchain.new_block (bc : Blockchain) (proof : Int)
    (previous_hash : Option HashVal) (now : Nat) : Option (Block × Blockchain) :=
  match previous_hash with
  | some v =>
    if v.truthy then
      let b : Block :=
        { index := (bc.chain.length : Int) + 1, timestamp := now,
          transactions := bc.unverified_transactions, proof := proof,
          previous_hash := v }
      some (b, { bc with chain := bc.chain ++ [b], unverified_transactions := [] })
    else none
  | none => none

/-- `genesis_block()`: `new_block(proof=100, previous_hash=1)` (the
sentinel is the Python `int` `1`, which is truthy). -/
def Blockchain.genesis_block (bc : Blockchain) (now : Nat) : Option (Block × Blockchain) :=
  bc.new_block 100 (some (HashVal.ofInt 1)) now

/-- `Blockchain.__init__`: empty state, then `genesis_block()` (which
always succeeds since the sentinel is truthy). -/
def Blockchain.init (now : Nat) : Blockchain :=
  match Blockchain.genesis_block ⟨[], [], []⟩ now with
  | some (_, bc) => bc
  | none => ⟨[], [], []⟩

/-- The outcome of `requests.get` on one peer during
`resolve_conflicts`: a transport exception, a non-200 status, a 200
response whose body fails to parse into blocks, or a parsed chain. -/
inductive FetchResult where
  | error
  | badStatus
  | badPayload
  | ok (chain : List Block)
deriving DecidableEq, Repr

/-- The peer loop of `resolve_conflicts`, iterating over each peer's
fetch outcome. `error` (the `requests.get` call raises) and
`badPayload` (`response.json()['chain']` or `Block.load_many` raises)
propagate out of the method — result flag `none` — leaving the state as
accumulated so far; `badStatus` falls through the `status_code == 200`
test; a parsed chain is adopted when strictly longer than the current
chain and valid. -/
def resolveGo (bc : Blockchain) (replaced : Bool) :
    List FetchResult → Blockchain × Option Bool
  | [] => (bc, some replaced)
  | r :: rest =>
    match r with
    | .error => (bc, none)
    | .badStatus => resolveGo bc replaced rest
    | .badPayload => (bc, none)
    | .ok c =>
      if c.length > bc.chain.length && valid_chain c then
        resolveGo { bc with chain := c } true rest
      else resolveGo bc replaced rest

/-- `resolve_conflicts()`, given the fetch outcome for each registered
peer in iteration order. Returns the final state and `some replaced`
when the method returns, `none` when it raises. -/
def Blockchain.resolve_conflicts (bc : Blockchain) (responses : List FetchResult) :
    Blockchain × Option Bool :=
  resolveGo bc false responses

/-- One ledger operation, for the frame-condition claims: the four
mutating entry points of the `Blockchain` class. -/
inductive Op where
  | submit (sender recipient : String) (amount : Int)
  | register (address : String)
  | newBlock (proof : Int) (previous_hash : Option HashVal) (now : Nat)
  | reconcile (responses : List FetchResult)
deriving DecidableEq, Repr

/-- Is the operation a `new_block` (seal) call? -/
def Op.isSeal : Op → Bool
  | .newBlock _ _ _ => true
  | _ => false

/-- Is the operation a `resolve_conflicts` call? -/
def Op.isReconcile : Op → Bool
  | .reconcile _ => true
  | _ => false

/-- Run one operation on the state, discarding its return value (a
failing `new_block` raises before mutating, leaving the state as it
was). -/
def applyOp (bc : Blockchain) : Op → Blockchain
  | .submit s r a => (bc.new_transaction s r a).2
  | .register addr => bc.register_node addr
  | .newBlock p ph t =>
    match bc.new_block p ph t with
    | some (_, bc') => bc'
    | none => bc
  | .reconcile rs => (bc.resolve_conflicts rs).1

/-- Each proof in the list satisfies the puzzle predicate against its
predecessor (the first against `last`). The pairs are (proof, clock
value) per sealed block. -/
def stepOKb : Int → List (Int × Nat) → Bool
  | _, [] => true
  | last, (p, _) :: rest => valid_proof last p && stepOKb p rest

/-- Seal one block per listed (proof, clock) pair, each time passing the
fingerprint of the then-last block as `previous_hash` — the usage
pattern of the `/mine` endpoint, iterated. -/
def sealMany : Blockchain → List (Int × Nat) → Blockchain
  | bc, [] => bc
  | bc, (p, t) :: rest =>
    match bc.last_block with
    | some lb =>
      match bc.new_block p (some (.ofStr (block_hash lb))) t with
      | some (_, bc') => sealMany bc' rest
      | none => bc
    | none => bc

/-- The adjacency condition `valid_chain` enforces on consecutive
blocks: fingerprint linkage plus puzzle validity. -/
def chainLink (p c : Block) : Prop :=
  c.previous_hash = HashVal.ofStr (block_hash p) ∧ valid_proof p.proof c.proof = true

/-- A concrete genesis-shaped block (the block `Blockchain.init 0`
creates), used to instantiate theorems. -/
def genesisB : Block :=
  { index := 1, timestamp := 0, transactions := [], proof := 100,
    previous_hash := HashVal.ofInt 1 }

/-- A concrete successor block correctly linked to `genesisB` with a
valid proof, used to instantiate theorems. -/
def nextB : Block :=
  { index := 2, timestamp := 7, transactions := [], proof := 35293,
    previous_hash := HashVal.ofStr (block_hash genesisB) }

/-- Sanity check against the standard test vector `sha256("abc")`. -/
theorem hashStr_abc :
    hashStr "abc" =
      "ba7816bf8f01cfea414140de5dae2223b00361a396177a9cb410ff61f20015ad" := by
  decide

/-- Concrete puzzle solution used by witnesses: `35293` is a valid proof
for `last_proof = 100`. -/
theorem valid_proof_100_35293 : valid_proof 100 35293 = true := by decide

/-- A solution to the puzzle for `last_proof = 100` exists. -/
theorem find_proof_exists_100 :
    ∃ p : Nat, valid_proof 100 (Int.ofNat p) = true :=
  ⟨35293, valid_proof_100_35293⟩

/-- The validator loop checks exactly the `chainLink` relation between
the seed block and each subsequent block. -/
theorem valid_chain_go_iff (l : List Block) :
    ∀ last, valid_chain_go last l = true ↔ List.Chain chainLink last l := by
  induction l with
  | nil => intro last; simp [valid_chain_go]
  | cons b rest ih =>
    intro last
    simp only [valid_chain_go]
    by_cases h1 : b.previous_hash = HashVal.ofStr (block_hash last)
    · by_cases h2 : valid_proof last.proof b.proof = true
      · simp [h1, h2, ih, List.chain_cons, chainLink]
      · simp [h1, h2, chainLink, List.chain_cons]
    · simp [h1, chainLink, List.chain_cons]

/-- `valid_chain` holds exactly when every adjacent pair satisfies
`chainLink`. -/
theorem valid_chain_iff (l : List Block) :
    valid_chain l = true ↔ List.Chain' chainLink l := by
  cases l with
  | nil => simp [valid_chain]
  | cons b rest =>
    simpa [valid_chain] using valid_chain_go_iff rest b

/-- One compression round preserves the state length. -/
theorem compress1_length (kw : Nat × Nat) (st : List Nat) :
    (compress1 kw st).length = st.length := by
  rcases st with _ | ⟨a, _ | ⟨b, _ | ⟨c, _ | ⟨d, _ | ⟨e, _ | ⟨f, _ | ⟨g, _ | ⟨h, _ | ⟨i, tl⟩⟩⟩⟩⟩⟩⟩⟩⟩ <;> rfl

/-- Folding compression rounds preserves the state length. -/
theorem foldl_compress1_length (l : List (Nat × Nat)) :
    ∀ hs : List Nat, (l.foldl (fun st kw => compress1 kw st) hs).length = hs.length := by
  induction l with
  | nil => intro hs; rfl
  | cons kw l ih => intro hs; simp [List.foldl_cons, ih, compress1_length]

/-- Processing a block preserves the 8-word state shape. -/
theorem processBlock_length (hs bw : List Nat) (h : hs.length = 8) :
    (processBlock hs bw).length = 8 := by
  simp [processBlock, foldl_compress1_length, h]

/-- Processing any number of chunks preserves the 8-word state shape. -/
theorem processChunks_length :
    ∀ (n : Nat) (hs ws : List Nat), hs.length = 8 → (processChunks n hs ws).length = 8 := by
  intro n
  induction n with
  | zero => intro hs ws h; exact h
  | succ n ih => intro hs ws h; exact ih _ _ (processBlock_length _ _ h)

/-- A SHA-256 state is always 8 words. -/
theorem sha256_length (m : List Nat) : (sha256 m).length = 8 :=
  processChunks_length _ _ _ rfl

/-- The flattened hex rendering has 8 characters per word. -/
theorem flatten_wordHex_length (l : List Nat) :
    ((l.map wordHex).flatten).length = 8 * l.length := by
  induction l with
  | nil => rfl
  | cons w l ih => simp [wordHex, ih, Nat.mul_succ]; ring

/-- Every digest the program produces is 64 characters long. -/
theorem hashStr_length (s : String) : (hashStr s).length = 64 := by
  have h : (((sha256 (strBytes s)).map wordHex).flatten).length = 64 := by
    rw [flatten_wordHex_length, sha256_length]
  exact h

/-- A digest is never the empty string. -/
theorem hashStr_ne_empty (s : String) : hashStr s ≠ "" := by
  intro h
  have h64 := hashStr_length s
  rw [h] at h64
  exact absurd h64 (by decide)

/-- A block fingerprint is a truthy `previous_hash` value (used: the
digest passed by the mining flow survives the `or` default). -/
theorem block_hash_truthy (b : Block) :
    (HashVal.ofStr (block_hash b)).truthy = true := by
  simp only [HashVal.truthy, bne_iff_ne, ne_eq]
  exact hashStr_ne_empty _

/-- The peer loop never touches `nodes` or the pending pool. -/
theorem resolveGo_frame (rs : List FetchResult) :
    ∀ bc rep, (resolveGo bc rep rs).1.nodes = bc.nodes ∧
      (resolveGo bc rep rs).1.unverified_transactions = bc.unverified_transactions := by
  induction rs with
  | nil => intro bc rep; exact ⟨rfl, rfl⟩
  | cons r rest ih =>
    intro bc rep
    cases r with
    | error => exact ⟨rfl, rfl⟩
    | badStatus => exact ih bc rep
    | badPayload => exact ⟨rfl, rfl⟩
    | ok c =>
      simp only [resolveGo]
      split
      · exact ih _ _
      · exact ih _ _

/-- The peer loop never shortens the chain, raised or not. -/
theorem resolveGo_length_mono (rs : List FetchResult) :
    ∀ bc rep, bc.chain.length ≤ (resolveGo bc rep rs).1.chain.length := by
  induction rs with
  | nil => intro bc rep; exact Nat.le_refl _
  | cons r rest ih =>
    intro bc rep
    cases r with
    | error => exact Nat.le_refl _
    | badStatus => exact ih bc rep
    | badPayload => exact Nat.le_refl _
    | ok c =>
      simp only [resolveGo]
      split
      · next hcond =>
        have hc : bc.chain.length < c.length ∧ valid_chain c = true := by
          simpa using hcond
        have hmono := ih { bc with chain := c } true
        have hmono' : c.length ≤ (resolveGo { bc with chain := c } true rest).1.chain.length :=
          hmono
        exact Nat.le_of_lt (Nat.lt_of_lt_of_le hc.1 hmono')
      · exact ih bc rep

/-- The chain after the peer loop is the input chain or one of the
adopted candidates: strictly longer and valid. -/
theorem resolveGo_chain_origin (rs : List FetchResult) :
    ∀ bc rep, (resolveGo bc rep rs).1.chain = bc.chain ∨
      ∃ c, FetchResult.ok c ∈ rs ∧ valid_chain c = true ∧
        bc.chain.length < c.length ∧ (resolveGo bc rep rs).1.chain = c := by
  induction rs with
  | nil => intro bc rep; exact Or.inl rfl
  | cons r rest ih =>
    intro bc rep
    cases r with
    | error => exact Or.inl rfl
    | badStatus =>
      rcases ih bc rep with h | ⟨c, hm, hv, hl, he⟩
      · exact Or.inl h
      · exact Or.inr ⟨c, List.mem_cons_of_mem _ hm, hv, hl, he⟩
    | badPayload => exact Or.inl rfl
    | ok c0 =>
      simp only [resolveGo]
      split
      · next hcond =>
        have hc : bc.chain.length < c0.length ∧ valid_chain c0 = true := by
          simpa using hcond
        rcases ih { bc with chain := c0 } true with h | ⟨c, hm, hv, hl, he⟩
        · exact Or.inr ⟨c0, List.mem_cons_self _ _, hc.2, hc.1, h⟩
        · have hl' : c0.length < c.length := hl
          exact Or.inr ⟨c, List.mem_cons_of_mem _ hm, hv,
            Nat.lt_trans hc.1 hl', he⟩
      · rcases ih bc rep with h | ⟨c, hm, hv, hl, he⟩
        · exact Or.inl h
        · exact Or.inr ⟨c, List.mem_cons_of_mem _ hm, hv, hl, he⟩

/-- The peer loop returns (rather than raising) exactly when no peer
outcome is a transport failure or a malformed payload. -/
theorem resolveGo_isSome_iff (rs : List FetchResult) :
    ∀ bc rep, (resolveGo bc rep rs).2.isSome = true ↔
      (FetchResult.error ∉ rs ∧ FetchResult.badPayload ∉ rs) := by
  induction rs with
  | nil => intro bc rep; simp [resolveGo]
  | cons r rest ih =>
    intro bc rep
    cases r with
    | error => simp [resolveGo]
    | badStatus => simp [resolveGo, ih bc rep]
    | badPayload => simp [resolveGo]
    | ok c =>
      simp only [resolveGo]
      split
      · simp [ih _ _]
      · simp [ih bc rep]

/-- The returned flag is true exactly when the flag was already set or
the chain changed. -/
theorem resolveGo_flag (rs : List FetchResult) :
    ∀ bc rep b, (resolveGo bc rep rs).2 = some b →
      (b = true ↔ (rep = true ∨ (resolveGo bc rep rs).1.chain ≠ bc.chain)) := by
  induction rs with
  | nil =>
    intro bc rep b hb
    simp only [resolveGo] at hb ⊢
    cases hb
    simp
  | cons r rest ih =>
    intro bc rep b hb
    cases r with
    | error => simp [resolveGo] at hb
    | badStatus => exact ih bc rep b hb
    | badPayload => simp [resolveGo] at hb
    | ok c =>
      simp only [resolveGo] at hb ⊢
      split at hb
      · next hcond =>
        have hc : bc.chain.length < c.length ∧ valid_chain c = true := by
          simpa using hcond
        have hbt : b = true := (ih _ _ b hb).mpr (Or.inl rfl)
        have hne : (resolveGo { bc with chain := c } true rest).1.chain ≠ bc.chain := by
          intro heq
          have hmono := resolveGo_length_mono rest { bc with chain := c } true
          rw [heq] at hmono
          have hmono' : c.length ≤ bc.chain.length := hmono
          omega
        rw [if_pos hcond]
        simp [hbt, hne]
      · next hcond =>
        rw [if_neg hcond]
        exact ih bc rep b hb

/-- When the loop returns, the final chain is at least as long as every
candidate that was strictly longer than the input chain and valid. -/
theorem resolveGo_max (rs : List FetchResult) :
    ∀ bc rep b, (resolveGo bc rep rs).2 = some b →
      ∀ c, FetchResult.ok c ∈ rs → valid_chain c = true →
        bc.chain.length < c.length →
        c.length ≤ (resolveGo bc rep rs).1.chain.length := by
  induction rs with
  | nil => intro bc rep b _ c hm; exact absurd hm (List.not_mem_nil _)
  | cons r rest ih =>
    intro bc rep b hb c hm hv hl
    cases r with
    | error => simp [resolveGo] at hb
    | badStatus =>
      rcases List.mem_cons.mp hm with h | h
      · exact absurd h (by simp)
      · exact ih bc rep b hb c h hv hl
    | badPayload => simp [resolveGo] at hb
    | ok c0 =>
      simp only [resolveGo] at hb ⊢
      split at hb
      · next hcond =>
        rw [if_pos hcond]
        rcases List.mem_cons.mp hm with h | h
        · have hcc0 : c = c0 := by injection h
          subst hcc0
          have hmono := resolveGo_length_mono rest { bc with chain := c } true
          exact hmono
        · rcases Nat.lt_or_ge c0.length c.length with hcc | hcc
          · have hih := ih { bc with chain := c0 } true b hb c h hv
            exact hih hcc
          · have hmono := resolveGo_length_mono rest { bc with chain := c0 } true
            have hmono' : c0.length ≤ (resolveGo { bc with chain := c0 } true rest).1.chain.length :=
              hmono
            exact Nat.le_trans hcc hmono'
      · next hcond =>
        rw [if_neg hcond]
        rcases List.mem_cons.mp hm with h | h
        · have hcc0 : c = c0 := by injection h
          subst hcc0
          exact absurd (by simp [hl, hv]) hcond
        · exact ih bc rep b hb c h hv hl

/-- C1 (counterexample): the claim says a peer that fails to respond or
returns a malformed payload is skipped and reconciliation completes
normally. On the code, a transport failure (`requests.get` raises) or a
malformed payload (`response.json()['chain']`/`Block.load_many` raises)
propagates out of `resolve_conflicts`: at these concrete inputs the call
raises instead of returning. -/
theorem reconcile_abort_counterexample :
    ((Blockchain.init 0).resolve_conflicts [FetchResult.error]).2 = none ∧
    ((Blockchain.init 0).resolve_conflicts [FetchResult.badPayload]).2 = none :=
  ⟨rfl, rfl⟩

/-- C1 (amended): during reconciliation a peer that responds with a
non-success status is skipped and the remaining peers are evaluated; the
call returns (completes normally) exactly when no peer fetch raises
(transport failure or malformed payload); and even when a fetch raises,
the local chain is never left partially updated — it is either the
pre-call chain or one wholesale-adopted fetched chain that is strictly
longer and valid. -/
theorem reconcile_error_handling (bc : Blockchain) (rs : List FetchResult) :
    (∀ rep, resolveGo bc rep (FetchResult.badStatus :: rs) = resolveGo bc rep rs) ∧
    ((bc.resolve_conflicts rs).2.isSome = true ↔
      (FetchResult.error ∉ rs ∧ FetchResult.badPayload ∉ rs)) ∧
    ((bc.resolve_conflicts rs).1.chain = bc.chain ∨
      ∃ c, FetchResult.ok c ∈ rs ∧ valid_chain c = true ∧
        bc.chain.length < c.length ∧ (bc.resolve_conflicts rs).1.chain = c) :=
  ⟨fun _ => rfl, resolveGo_isSome_iff rs bc false, resolveGo_chain_origin rs bc false⟩

/-- C1 (witness): the amended statement at a concrete ledger and a
single non-success-status peer. -/
theorem reconcile_error_handling_witness :
    (∀ rep, resolveGo (Blockchain.init 0) rep
        (FetchResult.badStatus :: [FetchResult.badStatus]) =
        resolveGo (Blockchain.init 0) rep [FetchResult.badStatus]) ∧
    (((Blockchain.init 0).resolve_conflicts [FetchResult.badStatus]).2.isSome = true ↔
      (FetchResult.error ∉ [FetchResult.badStatus] ∧
        FetchResult.badPayload ∉ [FetchResult.badStatus])) ∧
    (((Blockchain.init 0).resolve_conflicts [FetchResult.badStatus]).1.chain =
        (Blockchain.init 0).chain ∨
      ∃ c, FetchResult.ok c ∈ [FetchResult.badStatus] ∧ valid_chain c = true ∧
        (Blockchain.init 0).chain.length < c.length ∧
        ((Blockchain.init 0).resolve_conflicts [FetchResult.badStatus]).1.chain = c) :=
  reconcile_error_handling (Blockchain.init 0) [FetchResult.badStatus]

/-- C2 (code bug): `seal_block` with no explicit `previous_fingerprint`
is claimed to default to the fingerprint of the current last block and
return normally. The source computes `previous_hash or
self.last_block_hash`, but no attribute `last_block_hash` exists on
`Blockchain`, so the call raises `AttributeError` (modelled `none`)
instead — here evaluated at the failing input `new_block(5, None)` on a
fresh ledger. -/
theorem seal_block_default_attribute_error :
    (Blockchain.init 0).new_block 5 none 1 = none := rfl

/-- C3: whenever some non-negative integer solves the puzzle for
`last_proof`, `proof_of_work` (the embedded while loop) returns a
solution, and no smaller non-negative integer is a solution. -/
theorem find_proof_least (last_proof : Int)
    (h : ∃ p : Nat, valid_proof last_proof (Int.ofNat p) = true) :
    valid_proof last_proof (proof_of_work last_proof h) = true ∧
    ∀ q : Int, 0 ≤ q → q < proof_of_work last_proof h →
      valid_proof last_proof q = false := by
  constructor
  · exact Nat.find_spec h
  · intro q hq hlt
    have hlt' : q < ((Nat.find h : Nat) : Int) := hlt
    have hq' : q.toNat < Nat.find h := (Int.toNat_lt hq).mpr hlt'
    have hmin := Nat.find_min h hq'
    have hqe : Int.ofNat q.toNat = q := Int.toNat_of_nonneg hq
    rw [hqe] at hmin
    cases hvp : valid_proof last_proof q with
    | false => rfl
    | true => exact absurd hvp hmin

/-- C3 (witness): the theorem at `last_proof = 100`, whose puzzle is
solved by `35293`. -/
theorem find_proof_least_witness :
    (∃ p : Nat, valid_proof 100 (Int.ofNat p) = true) ∧
    (valid_proof 100 (proof_of_work 100 find_proof_exists_100) = true ∧
      ∀ q : Int, 0 ≤ q → q < proof_of_work 100 find_proof_exists_100 →
        valid_proof 100 q = false) :=
  ⟨find_proof_exists_100, find_proof_least 100 find_proof_exists_100⟩

/-- C4: `resolve_conflicts` never shortens the chain; the final chain is
the pre-call chain or a fetched, valid, strictly longer candidate; and
when the call returns, the returned flag is true exactly when the chain
was replaced, and the adopted chain is at least as long as every
qualifying candidate (so it is a longest one). -/
theorem reconcile_monotone_longest (bc : Blockchain) (rs : List FetchResult) :
    bc.chain.length ≤ (bc.resolve_conflicts rs).1.chain.length ∧
    ((bc.resolve_conflicts rs).1.chain = bc.chain ∨
      ∃ c, FetchResult.ok c ∈ rs ∧ valid_chain c = true ∧
        bc.chain.length < c.length ∧ (bc.resolve_conflicts rs).1.chain = c) ∧
    (∀ b, (bc.resolve_conflicts rs).2 = some b →
      ((b = true ↔ (bc.resolve_conflicts rs).1.chain ≠ bc.chain) ∧
        ∀ c, FetchResult.ok c ∈ rs → valid_chain c = true →
          bc.chain.length < c.length →
          c.length ≤ (bc.resolve_conflicts rs).1.chain.length)) := by
  refine ⟨resolveGo_length_mono rs bc false, resolveGo_chain_origin rs bc false, ?_⟩
  intro b hb
  constructor
  · simpa using resolveGo_flag rs bc false b hb
  · exact resolveGo_max rs bc false b hb

/-- C4 (witness): the theorem at a concrete ledger offered one valid
two-block candidate chain. -/
theorem reconcile_monotone_longest_witness :
    (Blockchain.init 0).chain.length ≤
      ((Blockchain.init 0).resolve_conflicts
        [FetchResult.ok [genesisB, nextB]]).1.chain.length ∧
    (((Blockchain.init 0).resolve_conflicts
        [FetchResult.ok [genesisB, nextB]]).1.chain = (Blockchain.init 0).chain ∨
      ∃ c, FetchResult.ok c ∈ [FetchResult.ok [genesisB, nextB]] ∧
        valid_chain c = true ∧ (Blockchain.init 0).chain.length < c.length ∧
        ((Blockchain.init 0).resolve_conflicts
          [FetchResult.ok [genesisB, nextB]]).1.chain = c) ∧
    (∀ b, ((Blockchain.init 0).resolve_conflicts
        [FetchResult.ok [genesisB, nextB]]).2 = some b →
      ((b = true ↔ ((Blockchain.init 0).resolve_conflicts
          [FetchResult.ok [genesisB, nextB]]).1.chain ≠ (Blockchain.init 0).chain) ∧
        ∀ c, FetchResult.ok c ∈ [FetchResult.ok [genesisB, nextB]] →
          valid_chain c = true → (Blockchain.init 0).chain.length < c.length →
          c.length ≤ ((Blockchain.init 0).resolve_conflicts
            [FetchResult.ok [genesisB, nextB]]).1.chain.length)) :=
  reconcile_monotone_longest (Blockchain.init 0) [FetchResult.ok [genesisB, nextB]]

/-- C5: `valid_chain` accepts every empty and single-block sequence;
in general it holds exactly when every adjacent pair satisfies the
fingerprint-linkage and puzzle conditions; and it imposes no condition
on indices or timestamps: for arbitrary index and timestamp values a
valid chain carrying them exists. -/
theorem valid_chain_characterization :
    (valid_chain [] = true) ∧
    (∀ b : Block, valid_chain [b] = true) ∧
    (∀ blocks : List Block, valid_chain blocks = true ↔ List.Chain' chainLink blocks) ∧
    (∀ (i1 i2 : Int) (t1 t2 : Nat), ∃ blocks : List Block,
      blocks.map Block.index = [i1, i2] ∧
      blocks.map Block.timestamp = [t1, t2] ∧ valid_chain blocks = true) := by
  refine ⟨rfl, fun b => rfl, valid_chain_iff, ?_⟩
  intro i1 i2 t1 t2
  refine ⟨[{ index := i1, timestamp := t1, transactions := [], proof := 100,
             previous_hash := HashVal.ofInt 1 },
           { index := i2, timestamp := t2, transactions := [], proof := 35293,
             previous_hash := HashVal.ofStr (block_hash
               { index := i1, timestamp := t1, transactions := [], proof := 100,
                 previous_hash := HashVal.ofInt 1 }) }], rfl, rfl, ?_⟩
  simp [valid_chain, valid_chain_go, valid_proof_100_35293]

/-- C6: a successful `new_block` call empties the pending pool, packs
exactly the previously pending transfers in order, stamps index
`len(chain) + 1`, and appends the block at the end of the chain leaving
every earlier element unchanged. -/
theorem seal_block_postconditions (bc : Blockchain) (proof : Int) (v : HashVal)
    (now : Nat) (h : v.truthy = true) :
    ∃ b bc', bc.new_block proof (some v) now = some (b, bc') ∧
      bc'.unverified_transactions = [] ∧
      b.transactions = bc.unverified_transactions ∧
      b.index = (bc.chain.length : Int) + 1 ∧
      bc'.chain = bc.chain ++ [b] ∧
      bc'.chain.getLast? = some b ∧
      bc'.chain.take bc.chain.length = bc.chain ∧
      bc'.nodes = bc.nodes := by
  refine ⟨{ index := (bc.chain.length : Int) + 1, timestamp := now,
            transactions := bc.unverified_transactions, proof := proof,
            previous_hash := v },
          { bc with
            chain := bc.chain ++
              [{ index := (bc.chain.length : Int) + 1, timestamp := now,
                 transactions := bc.unverified_transactions, proof := proof,
                 previous_hash := v }],
            unverified_transactions := [] }, ?_, rfl, rfl, rfl, rfl, ?_, ?_, rfl⟩
  · simp [Blockchain.new_block, h]
  · exact List.getLast?_concat _
  · exact List.take_left _ _

/-- C6 (witness): the postconditions at a concrete ledger with a truthy
explicit fingerprint. -/
theorem seal_block_postconditions_witness :
    (HashVal.ofStr "x").truthy = true ∧
    (∃ b bc', (Blockchain.init 0).new_block 7 (some (HashVal.ofStr "x")) 3 = some (b, bc') ∧
      bc'.unverified_transactions = [] ∧
      b.transactions = (Blockchain.init 0).unverified_transactions ∧
      b.index = ((Blockchain.init 0).chain.length : Int) + 1 ∧
      bc'.chain = (Blockchain.init 0).chain ++ [b] ∧
      bc'.chain.getLast? = some b ∧
      bc'.chain.take (Blockchain.init 0).chain.length = (Blockchain.init 0).chain ∧
      bc'.nodes = (Blockchain.init 0).nodes) :=
  ⟨by decide, seal_block_postconditions (Blockchain.init 0) 7 (HashVal.ofStr "x") 3 (by decide)⟩

/-- Sealing with the then-last block's fingerprint and stepwise-valid
proofs preserves chain validity and grows the length by one per step. -/
theorem sealMany_inv (steps : List (Int × Nat)) :
    ∀ (bc : Blockchain) (lb : Block), bc.chain.getLast? = some lb →
      valid_chain bc.chain = true → stepOKb lb.proof steps = true →
      (sealMany bc steps).chain.length = bc.chain.length + steps.length ∧
      valid_chain (sealMany bc steps).chain = true := by
  induction steps with
  | nil => intro bc lb _ hv _; exact ⟨rfl, hv⟩
  | cons pt rest ih =>
    obtain ⟨p, t⟩ := pt
    intro bc lb hlast hv hok
    have hok' : valid_proof lb.proof p = true ∧ stepOKb p rest = true := by
      simpa [stepOKb] using hok
    have htr := block_hash_truthy lb
    simp only [sealMany, Blockchain.last_block, hlast, Blockchain.new_block, htr, if_true]
    set b : Block :=
      { index := (bc.chain.length : Int) + 1, timestamp := t,
        transactions := bc.unverified_transactions, proof := p,
        previous_hash := HashVal.ofStr (block_hash lb) } with hb
    have hlast' : (bc.chain ++ [b]).getLast? = some b := List.getLast?_concat _
    have hv' : valid_chain (bc.chain ++ [b]) = true := by
      rw [valid_chain_iff] at hv ⊢
      rw [List.chain'_append]
      refine ⟨hv, List.chain'_singleton b, ?_⟩
      intro x hx y hy
      rw [hlast] at hx
      cases hx
      cases hy
      exact ⟨rfl, hok'.1⟩
    have hrec := ih { bc with chain := bc.chain ++ [b], unverified_transactions := [] }
      b hlast' hv' hok'.2
    refine ⟨?_, hrec.2⟩
    have hlen := hrec.1
    have hlen' : (bc.chain ++ [b]).length = bc.chain.length + 1 := by
      simp
    rw [hlen'] at hlen
    rw [hlen]
    simp only [List.length_cons]
    omega

/-- C7: starting from a fresh ledger, sealing N further blocks — each
with a proof solving the puzzle against the previous block's proof and
the fingerprint of the then-last block — yields a chain of length N+1
satisfying `valid_chain`; and proofs produced by `proof_of_work` always
satisfy the stepwise puzzle hypothesis. -/
theorem sealed_chain_valid (t0 : Nat) (steps : List (Int × Nat))
    (h : stepOKb 100 steps = true) :
    (sealMany (Blockchain.init t0) steps).chain.length = steps.length + 1 ∧
    valid_chain (sealMany (Blockchain.init t0) steps).chain = true ∧
    (∀ (last : Int) (hx : ∃ p : Nat, valid_proof last (Int.ofNat p) = true)
       (t : Nat) (rest : List (Int × Nat)),
      stepOKb (proof_of_work last hx) rest = true →
      stepOKb last ((proof_of_work last hx, t) :: rest) = true) := by
  have hlast : (Blockchain.init t0).chain.getLast? =
      some { index := 1, timestamp := t0, transactions := [], proof := 100,
             previous_hash := HashVal.ofInt 1 } := rfl
  have hv : valid_chain (Blockchain.init t0).chain = true := rfl
  have hmain := sealMany_inv steps (Blockchain.init t0)
    { index := 1, timestamp := t0, transactions := [], proof := 100,
      previous_hash := HashVal.ofInt 1 } hlast hv h
  refine ⟨?_, hmain.2, ?_⟩
  · have h1 : (Blockchain.init t0).chain.length = 1 := rfl
    rw [hmain.1, h1]
    omega
  · intro last hx t rest hrest
    have hvp : valid_proof last (proof_of_work last hx) = true := Nat.find_spec hx
    simp [stepOKb, hvp, hrest]

/-- C7 (witness): two blocks sealed over the fresh ledger with the
concrete least proofs 35293 (for 100) and 35089 (for 35293). -/
theorem sealed_chain_valid_witness :
    stepOKb 100 [((35293 : Int), (5 : Nat)), (35089, 9)] = true ∧
    ((sealMany (Blockchain.init 0) [((35293 : Int), (5 : Nat)), (35089, 9)]).chain.length =
        [((35293 : Int), (5 : Nat)), (35089, 9)].length + 1 ∧
      valid_chain (sealMany (Blockchain.init 0)
        [((35293 : Int), (5 : Nat)), (35089, 9)]).chain = true ∧
      (∀ (last : Int) (hx : ∃ p : Nat, valid_proof last (Int.ofNat p) = true)
         (t : Nat) (rest : List (Int × Nat)),
        stepOKb (proof_of_work last hx) rest = true →
        stepOKb last ((proof_of_work last hx, t) :: rest) = true)) :=
  ⟨by decide, sealed_chain_valid 0 [((35293 : Int), (5 : Nat)), (35089, 9)] (by decide)⟩

/-- C8: immediately after construction the chain holds exactly the
genesis block — index 1, sentinel proof 100, sentinel previous
fingerprint (the integer 1), no transfers — the pending pool and peer
set are empty, and the chain is valid without any puzzle requirement on
the genesis proof. -/
theorem init_genesis_state (t : Nat) :
    (Blockchain.init t).chain =
      [{ index := 1, timestamp := t, transactions := [], proof := 100,
         previous_hash := HashVal.ofInt 1 }] ∧
    (Blockchain.init t).unverified_transactions = [] ∧
    (Blockchain.init t).nodes = [] ∧
    valid_chain (Blockchain.init t).chain = true :=
  ⟨rfl, rfl, rfl, rfl⟩

/-- C8 (witness): the construction postcondition at clock value 42. -/
theorem init_genesis_state_witness :
    (Blockchain.init 42).chain =
      [{ index := 1, timestamp := 42, transactions := [], proof := 100,
         previous_hash := HashVal.ofInt 1 }] ∧
    (Blockchain.init 42).unverified_transactions = [] ∧
    (Blockchain.init 42).nodes = [] ∧
    valid_chain (Blockchain.init 42).chain = true :=
  init_genesis_state 42

/-- C9: `new_transaction` appends exactly one transfer and returns it,
leaving chain and peers unchanged; `register_node` leaves chain and
pending pool unchanged; no operation other than seal and reconcile
modifies the chain; and no operation other than seal removes pending
transfers (every other operation only extends the pool). -/
theorem operation_frame_conditions :
    (∀ (bc : Blockchain) (s r : String) (a : Int),
      (bc.new_transaction s r a).1 = { sender := s, recipient := r, amount := a } ∧
      (bc.new_transaction s r a).2.unverified_transactions =
        bc.unverified_transactions ++ [{ sender := s, recipient := r, amount := a }] ∧
      (bc.new_transaction s r a).2.chain = bc.chain ∧
      (bc.new_transaction s r a).2.nodes = bc.nodes) ∧
    (∀ (bc : Blockchain) (addr : String),
      (bc.register_node addr).chain = bc.chain ∧
      (bc.register_node addr).unverified_transactions = bc.unverified_transactions) ∧
    (∀ (bc : Blockchain) (op : Op), op.isSeal = false → op.isReconcile = false →
      (applyOp bc op).chain = bc.chain) ∧
    (∀ (bc : Blockchain) (op : Op), op.isSeal = false →
      ∃ added, (applyOp bc op).unverified_transactions =
        bc.unverified_transactions ++ added) := by
  refine ⟨fun bc s r a => ⟨rfl, rfl, rfl, rfl⟩, fun bc addr => ⟨rfl, rfl⟩, ?_, ?_⟩
  · intro bc op h1 h2
    cases op with
    | submit s r a => rfl
    | register addr => rfl
    | newBlock p ph t => simp [Op.isSeal] at h1
    | reconcile rs => simp [Op.isReconcile] at h2
  · intro bc op h1
    cases op with
    | submit s r a => exact ⟨[{ sender := s, recipient := r, amount := a }], rfl⟩
    | register addr => exact ⟨[], by simp [applyOp, Blockchain.register_node]⟩
    | newBlock p ph t => simp [Op.isSeal] at h1
    | reconcile rs =>
      exact ⟨[], by simp [applyOp, Blockchain.resolve_conflicts,
        (resolveGo_frame rs bc false).2]⟩

/-- C9 (witness): the frame conditions exercised at a concrete ledger,
with a register operation for the non-seal/non-reconcile parts. -/
theorem operation_frame_conditions_witness :
    ((Blockchain.init 0).new_transaction "A" "B" 10).2.chain = (Blockchain.init 0).chain ∧
    (applyOp (Blockchain.init 0) (Op.register "0.0.0.0:8001")).chain =
      (Blockchain.init 0).chain ∧
    (∃ added, (applyOp (Blockchain.init 0)
        (Op.register "0.0.0.0:8001")).unverified_transactions =
      (Blockchain.init 0).unverified_transactions ++ added) :=
  ⟨(operation_frame_conditions.1 (Blockchain.init 0) "A" "B" 10).2.2.1,
   operation_frame_conditions.2.2.1 (Blockchain.init 0) (Op.register "0.0.0.0:8001") rfl rfl,
   operation_frame_conditions.2.2.2 (Blockchain.init 0) (Op.register "0.0.0.0:8001") rfl⟩

/-- C10: `valid_proof` factors through the concatenated decimal
renderings of its two arguments: pairs with equal concatenations give
equal results. -/
theorem valid_proof_concat_only (a b c d : Int)
    (h : toString a ++ toString b = toString c ++ toString d) :
    valid_proof a b = valid_proof c d := by
  simp only [valid_proof]
  rw [h]

/-- C10 (witness): the pairs (1, 23) and (12, 3) share the puzzle input
"123", so their `valid_proof` results coincide. -/
theorem valid_proof_concat_only_witness :
    (toString (1 : Int) ++ toString (23 : Int) =
      toString (12 : Int) ++ toString (3 : Int)) ∧
    valid_proof 1 23 = valid_proof 12 3 :=
  ⟨by decide, valid_proof_concat_only 1 23 12 3 (by decide)⟩

end Chain
